import Mathlib

/-!
Verification of the muffler-sim repository (crates/sim-core).

This file gives a shallow embedding of the core algorithms of the
repository — the overlap-add convolution engine, the pump source, the
transfer-matrix acoustics, the frequency sweep, the impulse-response
synthesis and the IR hot-swap guard — and proves the specified
properties about them.  Machine floating point (`f64`) is embedded as
exact arithmetic: `ℚ` for the sample-processing code (so that concrete
instances evaluate by `decide`) and `ℝ`/`ℂ` for the trigonometric
acoustics code.
-/

namespace MufflerSim

/-! ## List indexing helpers -/

/-- Reading a mapped range at an index, with a default out of range. -/
theorem getD_map_range {α : Type} (f : ℕ → α) (m i : ℕ) (d : α) :
    (((List.range m).map f).getD i d) = if i < m then f i else d := by
  by_cases h : i < m
  · rw [List.getD_eq_getElem _ _ (by simpa using h)]
    simp [h]
  · rw [List.getD_eq_default _ _ (by simpa using Nat.le_of_not_lt h)]
    simp [h]

/-- Reading a `take` at an index, with a default out of range. -/
theorem getD_take {α : Type} (l : List α) (n i : ℕ) (d : α) :
    ((l.take n).getD i d) = if i < n then l.getD i d else d := by
  induction l generalizing n i with
  | nil => simp [List.getD_nil]
  | cons a t ih =>
    cases n with
    | zero => simp [List.getD_nil]
    | succ n =>
      cases i with
      | zero => simp
      | succ i =>
        rw [List.take_succ_cons, List.getD_cons_succ, List.getD_cons_succ, ih n i]
        simp [Nat.succ_lt_succ_iff]

/-- Reading a `drop` at an index shifts the index. -/
theorem getD_drop {α : Type} (l : List α) (n i : ℕ) (d : α) :
    ((l.drop n).getD i d) = l.getD (n + i) d := by
  induction l generalizing n with
  | nil => simp [List.getD_nil]
  | cons a t ih =>
    cases n with
    | zero => simp
    | succ n => simp [Nat.succ_add, ih n]

/-- Reading an append at an index, combined form. -/
theorem getD_append_eq {α : Type} (l l' : List α) (i : ℕ) (d : α) :
    ((l ++ l').getD i d) = if i < l.length then l.getD i d else l'.getD (i - l.length) d := by
  by_cases h : i < l.length
  · rw [List.getD_append _ _ _ _ h]
    simp [h]
  · rw [List.getD_append_right _ _ _ _ (Nat.le_of_not_lt h)]
    simp [h]

/-- Two lists with the same length and the same `getD` values are equal. -/
theorem eq_of_length_getD {α : Type} (l l' : List α) (d : α)
    (hlen : l.length = l'.length)
    (h : ∀ i, l.getD i d = l'.getD i d) : l = l' := by
  apply List.ext_getElem hlen
  intro i h1 h2
  have := h i
  rwa [List.getD_eq_getElem _ _ h1, List.getD_eq_getElem _ _ h2] at this

/-! ## Convolution engine (src/crates/sim-core/src/audio.rs)

`f64` samples are embedded as `ℚ` (exact arithmetic). -/

/-- Direct (time-domain) convolution, `conv[i+j] += input[i] * ir[j]`:
entry `n` is `Σ_{i+j=n} input[i]·ir[j]`, out-of-range reads count as 0. -/
def convolve (input ir : List ℚ) : List ℚ :=
  (List.range (input.length + ir.length - 1)).map fun n =>
    ∑ i ∈ Finset.range (n + 1), input.getD i 0 * ir.getD (n - i) 0

/-- State of the overlap-add convolution engine: the current impulse
response and the overlap (tail) buffer. -/
structure ConvolutionEngine where
  impulse_response : List ℚ
  overlap : List ℚ
  deriving DecidableEq

/-- Fresh engine: unit-impulse IR `[1.0]` and empty overlap
(`ConvolutionEngine::new`; the `block_size` argument is informational
only and stored nowhere relevant to processing). -/
def ConvolutionEngine.new (_block_size : ℕ) : ConvolutionEngine :=
  { impulse_response := [1], overlap := [] }

/-- One `process` call (`ConvolutionEngine::process`): returns the output
block and the updated engine state. -/
def ConvolutionEngine.process (e : ConvolutionEngine) (input : List ℚ) :
    List ℚ × ConvolutionEngine :=
  let ir := e.impulse_response
  if ir.isEmpty ∨ input.isEmpty then
    (List.replicate input.length 0, e)
  else
    let conv_len := input.length + ir.length - 1
    let convolved0 := convolve input ir
    -- add the overlap (tail) from the previous block into the head
    let overlap_add_len := min e.overlap.length conv_len
    let convolved := (List.range conv_len).map fun i =>
      convolved0.getD i 0 + if i < overlap_add_len then e.overlap.getD i 0 else 0
    -- if the old overlap was longer than the new convolved result,
    -- carry the remainder forward
    let leftover := if conv_len < e.overlap.length then e.overlap.drop conv_len else []
    let n := input.length
    let output := convolved.take n
    let new_overlap :=
      if n < conv_len then
        let new_tail := convolved.drop n
        let needed := max new_tail.length leftover.length
        (List.range needed).map fun i => leftover.getD i 0 + new_tail.getD i 0
      else leftover
    (output, { e with overlap := new_overlap })

/-- Process a sequence of blocks in order, concatenating the outputs. -/
def ConvolutionEngine.processBlocks (e : ConvolutionEngine) :
    List (List ℚ) → List ℚ × ConvolutionEngine
  | [] => ([], e)
  | b :: bs =>
    let r := e.process b
    let rest := r.2.processBlocks bs
    (r.1 ++ rest.1, rest.2)

/-! ### Pointwise description of `convolve` -/

/-- The defining sum of `convolve`, valid at every index (out of range the
sum itself vanishes). -/
theorem convolve_getD (input ir : List ℚ) (n : ℕ) :
    (convolve input ir).getD n 0
      = ∑ i ∈ Finset.range (n + 1), input.getD i 0 * ir.getD (n - i) 0 := by
  rw [convolve, getD_map_range]
  by_cases h : n < input.length + ir.length - 1
  · simp [h]
  · simp only [h, if_false]
    symm
    apply Finset.sum_eq_zero
    intro i hi
    rcases Nat.lt_or_ge i input.length with hin | hin
    · have hno : ir.length ≤ n - i := by omega
      rw [List.getD_eq_default _ _ hno, mul_zero]
    · rw [List.getD_eq_default _ _ hin, zero_mul]

theorem convolve_length (input ir : List ℚ) :
    (convolve input ir).length = input.length + ir.length - 1 := by
  simp [convolve]

/-- Splitting a convolution of concatenated inputs, past the end of the
first part: linearity of convolution in the input. -/
theorem convolve_append (X b ir : List ℚ) (n : ℕ) (hn : X.length ≤ n) :
    (convolve (X ++ b) ir).getD n 0
      = (convolve X ir).getD n 0 + (convolve b ir).getD (n - X.length) 0 := by
  rw [convolve_getD, convolve_getD, convolve_getD]
  have h0 : X.length ≤ n + 1 := by omega
  have hsum : ∀ x : List ℚ,
      ∑ i ∈ Finset.range (n + 1), x.getD i 0 * ir.getD (n - i) 0
        = (∑ i ∈ Finset.Ico 0 X.length, x.getD i 0 * ir.getD (n - i) 0)
          + ∑ i ∈ Finset.Ico X.length (n + 1), x.getD i 0 * ir.getD (n - i) 0 := by
    intro x
    rw [Finset.range_eq_Ico, ← Finset.sum_Ico_consecutive _ (Nat.zero_le X.length) h0]
  have hA1 : ∑ i ∈ Finset.Ico 0 X.length, (X ++ b).getD i 0 * ir.getD (n - i) 0
      = ∑ i ∈ Finset.Ico 0 X.length, X.getD i 0 * ir.getD (n - i) 0 := by
    apply Finset.sum_congr rfl
    intro i hi
    rw [List.getD_append _ _ _ _ (Finset.mem_Ico.mp hi).2]
  have hB2 : ∑ i ∈ Finset.Ico X.length (n + 1), X.getD i 0 * ir.getD (n - i) 0 = 0 := by
    apply Finset.sum_eq_zero
    intro i hi
    rw [List.getD_eq_default _ _ (Finset.mem_Ico.mp hi).1, zero_mul]
  have hA2 : ∑ i ∈ Finset.Ico X.length (n + 1), (X ++ b).getD i 0 * ir.getD (n - i) 0
      = ∑ j ∈ Finset.range (n - X.length + 1), b.getD j 0 * ir.getD (n - X.length - j) 0 := by
    rw [Finset.sum_Ico_eq_sum_range]
    have he : n + 1 - X.length = n - X.length + 1 := by omega
    rw [he]
    apply Finset.sum_congr rfl
    intro j _
    rw [List.getD_append_right _ _ _ _ (by omega : X.length ≤ X.length + j)]
    have h1 : X.length + j - X.length = j := by omega
    have h2 : n - (X.length + j) = n - X.length - j := by omega
    rw [h1, h2]
  rw [hsum (X ++ b), hsum X, hA1, hA2, hB2]
  ring

/-- Convolving with the unit impulse `[1]` is the identity. -/
theorem convolve_delta (x : List ℚ) : convolve x [1] = x := by
  apply eq_of_length_getD _ _ 0
  · rw [convolve_length]
    simp
  · intro n
    rw [convolve_getD]
    rw [Finset.sum_eq_single_of_mem n (Finset.self_mem_range_succ n)]
    · simp
    · intro i hi hne
      have h1 : ([(1 : ℚ)].getD (n - i) 0) = 0 := by
        apply List.getD_eq_default
        have := Finset.mem_range.mp hi
        simp
        omega
      rw [h1, mul_zero]

/-! ### Characterization of a `process` call -/

/-- Unfolding of `process` in the non-degenerate case. -/
theorem process_def_pos (h ov b : List ℚ) (hh : h ≠ []) (hb : b ≠ []) :
    ConvolutionEngine.process ⟨h, ov⟩ b =
      (let conv_len := b.length + h.length - 1
       let convolved := (List.range conv_len).map fun i =>
         (convolve b h).getD i 0 + if i < min ov.length conv_len then ov.getD i 0 else 0
       let leftover := if conv_len < ov.length then ov.drop conv_len else []
       (convolved.take b.length,
        ⟨h, if b.length < conv_len then
              (List.range (max (convolved.drop b.length).length leftover.length)).map
                fun i => leftover.getD i 0 + (convolved.drop b.length).getD i 0
            else leftover⟩)) := by
  rw [ConvolutionEngine.process]
  simp only [List.isEmpty_iff, hh, hb, or_self, if_false]

/-- Behaviour of one `process` call in the steady case, where the stored
overlap does not exceed the convolution length: the output is the block
convolution plus the pending overlap, and the new overlap is the tail. -/
theorem process_eq (h ov b : List ℚ) (hh : h ≠ []) (hb : b ≠ [])
    (hov : ov.length ≤ b.length + h.length - 1) :
    ((ConvolutionEngine.process ⟨h, ov⟩ b).1.length = b.length) ∧
    (∀ i, (ConvolutionEngine.process ⟨h, ov⟩ b).1.getD i 0
        = if i < b.length then (convolve b h).getD i 0 + ov.getD i 0 else 0) ∧
    ((ConvolutionEngine.process ⟨h, ov⟩ b).2.impulse_response = h) ∧
    ((ConvolutionEngine.process ⟨h, ov⟩ b).2.overlap.length = h.length - 1) ∧
    (∀ i, (ConvolutionEngine.process ⟨h, ov⟩ b).2.overlap.getD i 0
        = (convolve b h).getD (b.length + i) 0 + ov.getD (b.length + i) 0) := by
  have hbl : 1 ≤ b.length := List.length_pos.mpr hb
  have hhl : 1 ≤ h.length := List.length_pos.mpr hh
  rw [process_def_pos h ov b hh hb]
  dsimp only
  set conv_len := b.length + h.length - 1 with hcl
  have hble : b.length ≤ conv_len := by omega
  have hmin : min ov.length conv_len = ov.length := min_eq_left hov
  have hnl : ¬ conv_len < ov.length := by omega
  -- the combined convolved buffer, pointwise
  have hconv : ∀ i, (((List.range conv_len).map fun i =>
      (convolve b h).getD i 0 + if i < min ov.length conv_len then ov.getD i 0 else 0).getD i 0)
      = if i < conv_len then (convolve b h).getD i 0 + ov.getD i 0 else 0 := by
    intro i
    rw [getD_map_range]
    by_cases hi : i < conv_len
    · simp only [hi, if_true]
      by_cases hio : i < min ov.length conv_len
      · simp [hio]
      · rw [if_neg hio, List.getD_eq_default _ _ (by omega : ov.length ≤ i)]
    · simp [hi]
  have hconvlen : (((List.range conv_len).map fun i =>
      (convolve b h).getD i 0 + if i < min ov.length conv_len then ov.getD i 0 else 0).length)
      = conv_len := by simp
  simp only [if_neg hnl]
  refine ⟨?_, ?_, trivial, ?_, ?_⟩
  · rw [List.length_take, hconvlen]
    omega
  · intro i
    rw [getD_take]
    by_cases hi : i < b.length
    · simp only [hi, if_true]
      rw [hconv, if_pos (by omega : i < conv_len)]
    · simp only [hi, if_false]
  · -- length of the new overlap
    by_cases hlt : b.length < conv_len
    · rw [if_pos hlt]
      simp only [List.length_map, List.length_range, List.length_drop, List.length_nil,
        hconvlen]
      omega
    · rw [if_neg hlt]
      simp only [List.length_nil]
      omega
  · intro i
    by_cases hlt : b.length < conv_len
    · rw [if_pos hlt]
      have hmax : max ((((List.range conv_len).map fun i =>
          (convolve b h).getD i 0 + if i < min ov.length conv_len then ov.getD i 0 else 0).drop
            b.length).length) ([] : List ℚ).length = conv_len - b.length := by
        simp only [List.length_drop, List.length_nil, hconvlen]
        omega
      rw [hmax, getD_map_range]
      by_cases hi : i < conv_len - b.length
      · rw [if_pos hi, getD_drop, hconv, if_pos (by omega : b.length + i < conv_len)]
        simp [List.getD_nil]
      · rw [if_neg hi]
        have h1 : (convolve b h).getD (b.length + i) 0 = 0 := by
          apply List.getD_eq_default
          rw [convolve_length]
          omega
        have h2 : ov.getD (b.length + i) 0 = 0 := List.getD_eq_default _ _ (by omega)
        rw [h1, h2]
        simp
    · rw [if_neg hlt, List.getD_nil]
      have h1 : (convolve b h).getD (b.length + i) 0 = 0 := by
        apply List.getD_eq_default
        rw [convolve_length]
        omega
      have h2 : ov.getD (b.length + i) 0 = 0 := List.getD_eq_default _ _ (by omega)
      rw [h1, h2]
      simp

/-- Before the end of the first part, appending more input does not change
the convolution. -/
theorem convolve_append_lt (X b ir : List ℚ) (n : ℕ) (hn : n < X.length) :
    (convolve (X ++ b) ir).getD n 0 = (convolve X ir).getD n 0 := by
  rw [convolve_getD, convolve_getD]
  apply Finset.sum_congr rfl
  intro i hi
  rw [List.getD_append _ _ _ _ (by have := Finset.mem_range.mp hi; omega)]

theorem process_length_pos (h ov b : List ℚ) (hh : h ≠ []) (hb : b ≠ []) :
    (ConvolutionEngine.process ⟨h, ov⟩ b).1.length = b.length := by
  rw [process_def_pos h ov b hh hb]
  dsimp only
  rw [List.length_take]
  simp only [List.length_map, List.length_range]
  have hbl := List.length_pos.mpr hb
  have hhl := List.length_pos.mpr hh
  omega

theorem process_degenerate (e : ConvolutionEngine) (input : List ℚ)
    (hd : e.impulse_response = [] ∨ input = []) :
    e.process input = (List.replicate input.length 0, e) := by
  rcases hd with h | h <;> simp [ConvolutionEngine.process, h]

theorem processBlocks_cons (e : ConvolutionEngine) (b : List ℚ) (bs : List (List ℚ)) :
    e.processBlocks (b :: bs)
      = ((e.process b).1 ++ ((e.process b).2.processBlocks bs).1,
         ((e.process b).2.processBlocks bs).2) := rfl

/-! ### The streaming invariant -/

/-- The overlap buffer holds exactly the pending tail of the full
convolution of everything consumed so far. -/
def OverlapInv (h X ov : List ℚ) : Prop :=
  ov.length ≤ h.length - 1 ∧ ∀ i, ov.getD i 0 = (convolve X h).getD (X.length + i) 0

theorem overlapInv_nil (h : List ℚ) : OverlapInv h [] [] := by
  constructor
  · simp
  · intro i
    rw [convolve_getD]
    simp only [List.getD_nil]
    symm
    apply Finset.sum_eq_zero
    intro j _
    exact zero_mul _

theorem processBlocks_inv (h : List ℚ) (hh : h ≠ []) :
    ∀ (blocks : List (List ℚ)), (∀ b ∈ blocks, b ≠ []) →
    ∀ (X ov : List ℚ), OverlapInv h X ov →
      ((ConvolutionEngine.processBlocks ⟨h, ov⟩ blocks).1.length = blocks.flatten.length) ∧
      (∀ i, (ConvolutionEngine.processBlocks ⟨h, ov⟩ blocks).1.getD i 0
          = if i < blocks.flatten.length
            then (convolve (X ++ blocks.flatten) h).getD (X.length + i) 0 else 0) ∧
      ((ConvolutionEngine.processBlocks ⟨h, ov⟩ blocks).2.impulse_response = h) ∧
      OverlapInv h (X ++ blocks.flatten) (ConvolutionEngine.processBlocks ⟨h, ov⟩ blocks).2.overlap := by
  intro blocks
  induction blocks with
  | nil =>
    intro _ X ov hinv
    refine ⟨rfl, ?_, rfl, ?_⟩
    · intro i
      simp [ConvolutionEngine.processBlocks]
    · simpa using hinv
  | cons b bs ih =>
    intro hne X ov hinv
    have hbne : b ≠ [] := hne b (by simp)
    have hbsne : ∀ x ∈ bs, x ≠ [] := fun x hx => hne x (by simp [hx])
    obtain ⟨hovlen, hovget⟩ := hinv
    have hbl : 1 ≤ b.length := List.length_pos.mpr hbne
    have hhl : 1 ≤ h.length := List.length_pos.mpr hh
    have hov : ov.length ≤ b.length + h.length - 1 := by omega
    obtain ⟨hlen1, hget1, hir1, hovlen1, hovget1⟩ := process_eq h ov b hh hbne hov
    -- the engine after the first block, in constructor form
    have hEeta : ∀ E : ConvolutionEngine, E.impulse_response = h → E = ⟨h, E.overlap⟩ := by
      intro E hE
      cases E
      simp_all
    have he2 : (ConvolutionEngine.process ⟨h, ov⟩ b).2
        = ⟨h, (ConvolutionEngine.process ⟨h, ov⟩ b).2.overlap⟩ := hEeta _ hir1
    -- the invariant after the first block
    have hinv1 : OverlapInv h (X ++ b) (ConvolutionEngine.process ⟨h, ov⟩ b).2.overlap := by
      constructor
      · omega
      · intro i
        rw [hovget1 i, hovget (b.length + i)]
        have happ := convolve_append X b h (X.length + (b.length + i)) (by omega)
        rw [Nat.add_sub_cancel_left] at happ
        rw [List.length_append]
        have hidx : X.length + b.length + i = X.length + (b.length + i) := by omega
        rw [hidx, happ]
        ring
    obtain ⟨hlen2, hget2, hir2, hinv2⟩ := ih hbsne (X ++ b) _ hinv1
    rw [← he2] at hlen2 hget2 hir2 hinv2
    rw [processBlocks_cons]
    have hJ : (b :: bs).flatten = b ++ bs.flatten := List.flatten_cons
    refine ⟨?_, ?_, hir2, ?_⟩
    · simp only [List.length_append, hlen1, hlen2, hJ]
    · intro i
      rw [getD_append_eq, hlen1]
      by_cases hi : i < b.length
      · simp only [hi, if_true]
        rw [hget1 i, if_pos hi]
        have hi2 : i < (b :: bs).flatten.length := by
          rw [hJ, List.length_append]
          omega
        rw [if_pos hi2]
        have hassoc : X ++ (b :: bs).flatten = (X ++ b) ++ bs.flatten := by
          rw [hJ, List.append_assoc]
        rw [hassoc, convolve_append_lt _ _ _ _ (by rw [List.length_append]; omega),
          convolve_append X b h (X.length + i) (by omega), Nat.add_sub_cancel_left,
          hovget i]
        ring
      · simp only [hi, if_false]
        rw [hget2 (i - b.length)]
        have hassoc : X ++ (b :: bs).flatten = (X ++ b) ++ bs.flatten := by
          rw [hJ, List.append_assoc]
        by_cases hij : i < (b :: bs).flatten.length
        · have hij2 : i - b.length < bs.flatten.length := by
            rw [hJ, List.length_append] at hij
            omega
          rw [if_pos hij2, if_pos hij, hassoc]
          congr 1
          rw [List.length_append]
          omega
        · have hij2 : ¬ i - b.length < bs.flatten.length := by
            rw [hJ, List.length_append] at hij
            omega
          rw [if_neg hij2, if_neg hij]
    · have hassoc : X ++ (b :: bs).flatten = (X ++ b) ++ bs.flatten := by
        rw [hJ, List.append_assoc]
      rw [hassoc]
      exact hinv2

/-! ### Claim theorems for the convolution engine -/

/-- C1: for a fixed non-empty IR `h` and any sequence of non-empty blocks,
streaming overlap-add processing from a fresh engine state (empty overlap)
produces outputs whose concatenation is the corresponding prefix of the
one-shot direct convolution of the concatenated input with `h`. -/
theorem streaming_matches_direct_convolution (h : List ℚ) (blocks : List (List ℚ))
    (hh : h ≠ []) (hbs : ∀ b ∈ blocks, b ≠ []) :
    (ConvolutionEngine.processBlocks ⟨h, []⟩ blocks).1
      = (convolve blocks.flatten h).take blocks.flatten.length := by
  obtain ⟨hlen, hget, -, -⟩ := processBlocks_inv h hh blocks hbs [] [] (overlapInv_nil h)
  apply eq_of_length_getD _ _ 0
  · rw [hlen, List.length_take, convolve_length]
    have := List.length_pos.mpr hh
    omega
  · intro i
    rw [hget i, getD_take]
    by_cases hi : i < blocks.flatten.length
    · simp only [hi, if_true, List.nil_append, List.length_nil, Nat.zero_add]
    · simp only [hi, if_false]

/-- Witness for C1 at the spec's concrete example: IR `[0.5, 0.5]` across
two 4-sample blocks. -/
theorem streaming_matches_direct_convolution_witness :
    (([(1:ℚ)/2, 1/2] : List ℚ) ≠ []) ∧
    (∀ b ∈ ([[(1:ℚ), 0, 0, 0], [0, 0, 1, 0]] : List (List ℚ)), b ≠ []) ∧
    (ConvolutionEngine.processBlocks ⟨[(1:ℚ)/2, 1/2], []⟩ [[1, 0, 0, 0], [0, 0, 1, 0]]).1
      = (convolve ([[(1:ℚ), 0, 0, 0], [0, 0, 1, 0]] : List (List ℚ)).flatten [(1:ℚ)/2, 1/2]).take
          ([[(1:ℚ), 0, 0, 0], [0, 0, 1, 0]] : List (List ℚ)).flatten.length :=
  ⟨by decide, by decide,
    streaming_matches_direct_convolution [(1:ℚ)/2, 1/2] [[1, 0, 0, 0], [0, 0, 1, 0]]
      (by decide) (by decide)⟩

/-- C3: every `process` call returns exactly as many samples as its input,
whatever the current IR and overlap state; in the degenerate cases (empty
IR or empty input) the output is all zeros. -/
theorem process_returns_input_length (e : ConvolutionEngine) (input : List ℚ) :
    ((e.process input).1.length = input.length) ∧
    ((e.impulse_response = [] ∨ input = []) →
      (e.process input).1 = List.replicate input.length 0) := by
  by_cases hd : e.impulse_response = [] ∨ input = []
  · rw [process_degenerate e input hd]
    exact ⟨List.length_replicate _ _, fun _ => rfl⟩
  · push_neg at hd
    obtain ⟨h1, h2⟩ := hd
    refine ⟨?_, fun hc => absurd hc (by push_neg; exact ⟨h1, h2⟩)⟩
    exact process_length_pos e.impulse_response e.overlap input h1 h2

/-- Witness for C3: an empty IR with a two-sample input yields `[0, 0]`. -/
theorem process_returns_input_length_witness :
    ((ConvolutionEngine.process ⟨[], [3]⟩ [1, 2]).1.length = 2) ∧
    ((ConvolutionEngine.process ⟨[], [3]⟩ [1, 2]).1 = List.replicate 2 0) :=
  ⟨(process_returns_input_length ⟨[], [3]⟩ [1, 2]).1,
   (process_returns_input_length ⟨[], [3]⟩ [1, 2]).2 (Or.inl rfl)⟩

/-- C2: when the stored overlap is longer than the new convolution length
(IR shrunk via hot-swap), the overlap head is added element-wise into the
convolution, the unconsumed remainder `ov[conv_len..]` is carried forward
into the next overlap buffer, and the convolution tail beyond the first L
output samples is summed with it rather than overwritten. -/
theorem process_shrunk_ir_keeps_tail (h ov b : List ℚ) (hh : h ≠ []) (hb : b ≠ [])
    (hov : b.length + h.length - 1 < ov.length) :
    ((ConvolutionEngine.process ⟨h, ov⟩ b).1.length = b.length) ∧
    (∀ i, i < b.length →
      (ConvolutionEngine.process ⟨h, ov⟩ b).1.getD i 0
        = (convolve b h).getD i 0 + ov.getD i 0) ∧
    ((ConvolutionEngine.process ⟨h, ov⟩ b).2.overlap.length
        = max (b.length + h.length - 1 - b.length) (ov.length - (b.length + h.length - 1))) ∧
    (∀ i, (ConvolutionEngine.process ⟨h, ov⟩ b).2.overlap.getD i 0
        = ov.getD (b.length + h.length - 1 + i) 0
          + (if b.length + i < b.length + h.length - 1
             then (convolve b h).getD (b.length + i) 0 + ov.getD (b.length + i) 0
             else 0)) := by
  have hbl : 1 ≤ b.length := List.length_pos.mpr hb
  have hhl : 1 ≤ h.length := List.length_pos.mpr hh
  refine ⟨process_length_pos h ov b hh hb, ?_⟩
  rw [process_def_pos h ov b hh hb]
  dsimp only
  set conv_len := b.length + h.length - 1 with hcl
  have hble : b.length ≤ conv_len := by omega
  have hmin : min ov.length conv_len = conv_len := min_eq_right (by omega)
  have hnl : conv_len < ov.length := hov
  have hconv : ∀ i, (((List.range conv_len).map fun i =>
      (convolve b h).getD i 0 + if i < min ov.length conv_len then ov.getD i 0 else 0).getD i 0)
      = if i < conv_len then (convolve b h).getD i 0 + ov.getD i 0 else 0 := by
    intro i
    rw [getD_map_range]
    by_cases hi : i < conv_len
    · simp only [hi, if_true]
      rw [if_pos (by omega : i < min ov.length conv_len)]
    · simp [hi]
  have hconvlen : (((List.range conv_len).map fun i =>
      (convolve b h).getD i 0 + if i < min ov.length conv_len then ov.getD i 0 else 0).length)
      = conv_len := by simp
  simp only [if_pos hnl]
  refine ⟨?_, ?_, ?_⟩
  · intro i hi
    rw [getD_take]
    simp only [hi, if_true]
    rw [hconv, if_pos (by omega : i < conv_len)]
  · -- length of the new overlap buffer
    by_cases hlt : b.length < conv_len
    · rw [if_pos hlt]
      simp only [List.length_map, List.length_range, List.length_drop, hconvlen]
    · rw [if_neg hlt]
      rw [List.length_drop]
      omega
  · intro i
    by_cases hlt : b.length < conv_len
    · rw [if_pos hlt]
      have hmax : max ((((List.range conv_len).map fun i =>
          (convolve b h).getD i 0 + if i < min ov.length conv_len then ov.getD i 0 else 0).drop
            b.length).length) ((ov.drop conv_len).length) = max (conv_len - b.length)
            (ov.length - conv_len) := by
        simp only [List.length_drop, hconvlen]
      rw [hmax, getD_map_range]
      by_cases hi : i < max (conv_len - b.length) (ov.length - conv_len)
      · rw [if_pos hi, getD_drop, getD_drop, hconv]
      · rw [if_neg hi]
        have h1 : ov.getD (conv_len + i) 0 = 0 := List.getD_eq_default _ _ (by omega)
        have h2 : ¬ b.length + i < conv_len := by omega
        rw [h1, if_neg h2, add_zero]
    · rw [if_neg hlt, getD_drop]
      have h2 : ¬ b.length + i < conv_len := by omega
      rw [if_neg h2, add_zero]

/-- Witness for C2: IR `[1]`, oversize stored overlap `[5, 6, 7]`, input
`[2]`. -/
theorem process_shrunk_ir_keeps_tail_witness :
    (([(1:ℚ)] : List ℚ) ≠ []) ∧ (([(2:ℚ)] : List ℚ) ≠ []) ∧
    (([(2:ℚ)] : List ℚ).length + ([(1:ℚ)] : List ℚ).length - 1
      < ([(5:ℚ), 6, 7] : List ℚ).length) ∧
    ((ConvolutionEngine.process ⟨[(1:ℚ)], [5, 6, 7]⟩ [2]).2.overlap.length
      = max (([(2:ℚ)] : List ℚ).length + ([(1:ℚ)] : List ℚ).length - 1 - ([(2:ℚ)] : List ℚ).length)
          (([(5:ℚ), 6, 7] : List ℚ).length
            - (([(2:ℚ)] : List ℚ).length + ([(1:ℚ)] : List ℚ).length - 1))) :=
  ⟨by decide, by decide, by decide,
   (process_shrunk_ir_keeps_tail [1] [5, 6, 7] [2] (by decide) (by decide) (by decide)).2.2.1⟩

/-- C10: a freshly constructed engine has the unit impulse `[1.0]` as its
IR and an empty overlap, so its first `process` call is a pass-through. -/
theorem fresh_engine_passthrough (block_size : ℕ) (x : List ℚ) :
    ((ConvolutionEngine.new block_size).impulse_response = [1]) ∧
    ((ConvolutionEngine.new block_size).overlap = []) ∧
    (((ConvolutionEngine.new block_size).process x).1 = x) := by
  refine ⟨rfl, rfl, ?_⟩
  show (ConvolutionEngine.process ⟨[1], []⟩ x).1 = x
  by_cases hx : x = []
  · subst hx
    rfl
  · obtain ⟨hlen, hget, -, -, -⟩ := process_eq [1] [] x (by decide) hx (by simp)
    apply eq_of_length_getD _ _ 0
    · rw [hlen]
    · intro i
      rw [hget i]
      by_cases hi : i < x.length
      · rw [if_pos hi, convolve_delta]
        simp [List.getD_nil]
      · rw [if_neg hi]
        have hx0 : x.getD i 0 = 0 := List.getD_eq_default _ _ (by omega)
        rw [hx0]

/-! ## IR hot-swap guard (`AudioPipeline::swap_ir`)

`f64` values here are modelled by a type that distinguishes the finite
values (carried exactly as `ℚ`) from the non-finite ones (`NaN`, `±inf`),
which is all `swap_ir` inspects. -/

/-- An `f64` value as classified by `is_finite`. -/
inductive FloatVal where
  | finite (q : ℚ)
  | nan
  | inf
  | neginf
  deriving DecidableEq

/-- Rust `f64::is_finite`. -/
def FloatVal.is_finite : FloatVal → Bool
  | .finite _ => true
  | _ => false

/-- `AudioPipeline::swap_ir`: reject a candidate IR containing non-finite
values, keeping the stored IR; otherwise store the candidate. -/
def swap_ir (stored candidate : List FloatVal) : List FloatVal :=
  if candidate.all FloatVal.is_finite then candidate else stored

/-- C9: `swap_ir` leaves the stored IR untouched when the candidate has
any non-finite value, and replaces it with the candidate when all values
are finite. -/
theorem swap_ir_rejects_nonfinite (stored candidate : List FloatVal) :
    ((∃ v ∈ candidate, v.is_finite = false) → swap_ir stored candidate = stored) ∧
    ((∀ v ∈ candidate, v.is_finite = true) → swap_ir stored candidate = candidate) := by
  constructor
  · intro hbad
    rw [swap_ir, if_neg]
    simp only [List.all_eq_true, not_forall]
    obtain ⟨v, hv, hvf⟩ := hbad
    exact ⟨v, hv, by simp [hvf]⟩
  · intro hgood
    rw [swap_ir, if_pos]
    simp only [List.all_eq_true]
    exact hgood

/-- Witness for C9: a candidate containing `NaN` is rejected; an
all-finite candidate is stored. -/
theorem swap_ir_rejects_nonfinite_witness :
    ((∃ v ∈ [FloatVal.finite 1, FloatVal.nan], v.is_finite = false) ∧
      swap_ir [FloatVal.finite 2] [FloatVal.finite 1, FloatVal.nan] = [FloatVal.finite 2]) ∧
    ((∀ v ∈ [FloatVal.finite 3], v.is_finite = true) ∧
      swap_ir [FloatVal.finite 2] [FloatVal.finite 3] = [FloatVal.finite 3]) :=
  ⟨⟨by decide,
    (swap_ir_rejects_nonfinite [FloatVal.finite 2] [FloatVal.finite 1, FloatVal.nan]).1
      (by decide)⟩,
   ⟨by decide,
    (swap_ir_rejects_nonfinite [FloatVal.finite 2] [FloatVal.finite 3]).2 (by decide)⟩⟩

/-! ## Pump source (src/crates/sim-core/src/pump.rs)

The phase arithmetic is trigonometric, so here `f64` is embedded as `ℝ`. -/

/-- Rust `%` on `f64` (remainder truncated toward zero). -/
noncomputable def fRem (x y : ℝ) : ℝ :=
  x - y * (if 0 ≤ x / y then ((⌊x / y⌋ : ℤ) : ℝ) else ((⌈x / y⌉ : ℤ) : ℝ))

/-- Multi-valve diaphragm pump source state. -/
structure PumpSource where
  rpm : ℝ
  num_valves : ℕ
  duty_cycle : ℝ
  phase : ℝ
  sample_rate : ℝ

/-- `PumpSource::new`: phase starts at 0. -/
noncomputable def PumpSource.new (rpm : ℝ) (num_valves : ℕ) (duty_cycle sample_rate : ℝ) : PumpSource :=
  ⟨rpm, num_valves, duty_cycle, 0, sample_rate⟩

/-- `PumpSource::set_params`: update RPM, valves and duty cycle without
resetting phase. -/
def PumpSource.set_params (p : PumpSource) (rpm : ℝ) (num_valves : ℕ)
    (duty_cycle : ℝ) : PumpSource :=
  { p with rpm := rpm, num_valves := num_valves, duty_cycle := duty_cycle }

/-- Per-sample phase increment `2π·(rpm/60)/sample_rate`. -/
noncomputable def PumpSource.d_phase (p : PumpSource) : ℝ :=
  2 * Real.pi * (p.rpm / 60) / p.sample_rate

/-- The sample value produced from the current state (the loop body of
`generate` before the phase update). -/
noncomputable def PumpSource.sampleAt (p : PumpSource) : ℝ :=
  ∑ v ∈ Finset.range p.num_valves,
    (fun valve_phase =>
      (fun theta active_angle =>
        if theta < active_angle then Real.sin (Real.pi * theta / active_angle) else 0)
      (fRem valve_phase (2 * Real.pi)) (p.duty_cycle * (2 * Real.pi)))
    (p.phase + 2 * Real.pi * (v : ℝ) / (p.num_valves : ℝ))

/-- The phase update of `generate`: add `d_phase`, subtract `2π` once if
the result reached `2π`. -/
noncomputable def PumpSource.advance (p : PumpSource) : PumpSource :=
  { p with phase :=
      if 2 * Real.pi ≤ p.phase + p.d_phase
      then p.phase + p.d_phase - 2 * Real.pi
      else p.phase + p.d_phase }

/-- `PumpSource::generate`: produce `count` samples, mutating the phase. -/
noncomputable def PumpSource.generate : PumpSource → ℕ → List ℝ × PumpSource
  | p, 0 => ([], p)
  | p, n + 1 =>
    let s := p.sampleAt
    let r := p.advance.generate n
    (s :: r.1, r.2)

/-- Sample index `i` of the stream produced by `generate`. -/
noncomputable def PumpSource.stream (p : PumpSource) (i : ℕ) : ℝ :=
  ((p.generate (i + 1)).1).getD i 0

/-! ### Basic facts about `generate` -/

theorem generate_zero (p : PumpSource) : p.generate 0 = ([], p) := rfl

theorem generate_succ (p : PumpSource) (n : ℕ) :
    p.generate (n + 1)
      = (p.sampleAt :: (p.advance.generate n).1, (p.advance.generate n).2) := rfl

theorem generate_state (p : PumpSource) (n : ℕ) :
    (p.generate n).2 = PumpSource.advance^[n] p := by
  induction n generalizing p with
  | zero => rfl
  | succ n ih =>
    rw [generate_succ, Function.iterate_succ_apply]
    exact ih p.advance

theorem generate_getD (p : PumpSource) (n i : ℕ) (h : i < n) :
    (p.generate n).1.getD i 0 = (PumpSource.advance^[i] p).sampleAt := by
  induction n generalizing p i with
  | zero => omega
  | succ n ih =>
    rw [generate_succ]
    cases i with
    | zero => rfl
    | succ i =>
      rw [List.getD_cons_succ, Function.iterate_succ_apply]
      exact ih p.advance i (by omega)

theorem stream_eq (p : PumpSource) (i : ℕ) :
    p.stream i = (PumpSource.advance^[i] p).sampleAt :=
  generate_getD p (i + 1) i (by omega)

/-- `advance` only changes the phase. -/
theorem iterate_advance_fields (p : PumpSource) (n : ℕ) :
    (PumpSource.advance^[n] p).rpm = p.rpm ∧
    (PumpSource.advance^[n] p).num_valves = p.num_valves ∧
    (PumpSource.advance^[n] p).duty_cycle = p.duty_cycle ∧
    (PumpSource.advance^[n] p).sample_rate = p.sample_rate := by
  induction n with
  | zero => exact ⟨rfl, rfl, rfl, rfl⟩
  | succ n ih =>
    rw [Function.iterate_succ_apply']
    exact ih

theorem iterate_advance_d_phase (p : PumpSource) (n : ℕ) :
    (PumpSource.advance^[n] p).d_phase = p.d_phase := by
  obtain ⟨h1, -, -, h4⟩ := iterate_advance_fields p n
  rw [PumpSource.d_phase, PumpSource.d_phase, h1, h4]

/-- Closed form of the phase after `n` advances, when the increment lies
in `[0, 2π]`: the single conditional subtraction implements reduction
modulo `2π`. -/
theorem iterate_advance_phase (p : PumpSource) (hphase : p.phase = 0)
    (hd0 : 0 ≤ p.d_phase) (hd2 : p.d_phase ≤ 2 * Real.pi) (n : ℕ) :
    (PumpSource.advance^[n] p).phase
      = toIcoMod Real.two_pi_pos 0 ((n : ℝ) * p.d_phase) := by
  induction n with
  | zero =>
    rw [Function.iterate_zero_apply, hphase]
    rw [Nat.cast_zero, zero_mul]
    exact (toIcoMod_apply_left Real.two_pi_pos 0).symm
  | succ n ih =>
    rw [Function.iterate_succ_apply']
    have hdq := iterate_advance_d_phase p n
    set q := PumpSource.advance^[n] p with hq
    have hadv : q.advance.phase
        = if 2 * Real.pi ≤ q.phase + q.d_phase
          then q.phase + q.d_phase - 2 * Real.pi
          else q.phase + q.d_phase := rfl
    rw [hadv]
    have hmem : toIcoMod Real.two_pi_pos 0 ((n : ℝ) * p.d_phase) ∈ Set.Ico 0 (2 * Real.pi) :=
      toIcoMod_mem_Ico' Real.two_pi_pos _
    have hq0 : 0 ≤ q.phase := by rw [ih]; exact hmem.1
    have hq2 : q.phase < 2 * Real.pi := by rw [ih]; exact hmem.2
    have hdecomp : (n : ℝ) * p.d_phase - q.phase
        = toIcoDiv Real.two_pi_pos 0 ((n : ℝ) * p.d_phase) • (2 * Real.pi) := by
      rw [ih]
      exact self_sub_toIcoMod Real.two_pi_pos 0 _
    set k := toIcoDiv Real.two_pi_pos 0 ((n : ℝ) * p.d_phase) with hk
    have hcast : ((n + 1 : ℕ) : ℝ) * p.d_phase = (n : ℝ) * p.d_phase + p.d_phase := by
      push_cast
      ring
    rw [hdq]
    by_cases hcond : 2 * Real.pi ≤ q.phase + p.d_phase
    · rw [if_pos hcond]
      symm
      rw [toIcoMod_eq_iff Real.two_pi_pos]
      refine ⟨⟨by linarith, by simp only [zero_add]; linarith⟩, k + 1, ?_⟩
      rw [hcast]
      have : (k + 1) • (2 * Real.pi) = k • (2 * Real.pi) + 2 * Real.pi := by
        rw [add_zsmul, one_zsmul]
      rw [this]
      linarith [hdecomp]
    · rw [if_neg hcond]
      push_neg at hcond
      symm
      rw [toIcoMod_eq_iff Real.two_pi_pos]
      refine ⟨⟨by linarith, by simp only [zero_add]; linarith⟩, k, ?_⟩
      rw [hcast]
      linarith [hdecomp]

/-- Two pump states with the same fields are equal. -/
theorem pump_ext (q r : PumpSource) (h1 : q.rpm = r.rpm)
    (h2 : q.num_valves = r.num_valves) (h3 : q.duty_cycle = r.duty_cycle)
    (h4 : q.phase = r.phase) (h5 : q.sample_rate = r.sample_rate) : q = r := by
  cases q
  cases r
  simp_all

/-! ### Claim theorems for the pump -/

/-- C7: for fixed parameters, the stream generated by a fresh pump is
periodic with period `P = sample_rate/(rpm/60)` samples (one motor
revolution): sample `i + P` equals sample `i`. -/
theorem pump_stream_periodic (rpm duty_cycle sample_rate : ℝ) (num_valves P : ℕ)
    (hr : 0 < rpm) (hs : 0 < sample_rate) (hP : 1 ≤ P)
    (hper : (P : ℝ) = sample_rate / (rpm / 60)) :
    ∀ i : ℕ, (PumpSource.new rpm num_valves duty_cycle sample_rate).stream (i + P)
      = (PumpSource.new rpm num_valves duty_cycle sample_rate).stream i := by
  intro i
  set p := PumpSource.new rpm num_valves duty_cycle sample_rate with hp
  have hdp : p.d_phase = 2 * Real.pi * (rpm / 60) / sample_rate := rfl
  have hr60 : (0 : ℝ) < rpm / 60 := by positivity
  have hdpos : 0 < p.d_phase := by
    rw [hdp]
    positivity
  have hPd : (P : ℝ) * p.d_phase = 2 * Real.pi := by
    rw [hdp, hper]
    field_simp
    ring
  have hP1 : (1 : ℝ) ≤ (P : ℝ) := by exact_mod_cast hP
  have hdle : p.d_phase ≤ 2 * Real.pi := by
    nlinarith [mul_le_mul_of_nonneg_right hP1 (le_of_lt hdpos)]
  have hphase0 : p.phase = 0 := rfl
  have hph := iterate_advance_phase p hphase0 (le_of_lt hdpos) hdle
  rw [stream_eq, stream_eq]
  congr 1
  apply pump_ext
  · rw [(iterate_advance_fields p (i + P)).1, (iterate_advance_fields p i).1]
  · rw [(iterate_advance_fields p (i + P)).2.1, (iterate_advance_fields p i).2.1]
  · rw [(iterate_advance_fields p (i + P)).2.2.1, (iterate_advance_fields p i).2.2.1]
  · rw [hph (i + P), hph i]
    have hc : ((i + P : ℕ) : ℝ) * p.d_phase = (i : ℝ) * p.d_phase + 2 * Real.pi := by
      push_cast
      rw [add_mul]
      rw [hPd]
    rw [hc, toIcoMod_add_right]
  · rw [(iterate_advance_fields p (i + P)).2.2.2, (iterate_advance_fields p i).2.2.2]

/-- Witness for C7: rpm 60, sample rate 2, period 2 samples. -/
theorem pump_stream_periodic_witness :
    ((0 : ℝ) < 60) ∧ ((0 : ℝ) < 2) ∧ (1 ≤ 2) ∧ (((2 : ℕ) : ℝ) = 2 / (60 / 60)) ∧
    ((PumpSource.new 60 1 (1/2) 2).stream (0 + 2)
      = (PumpSource.new 60 1 (1/2) 2).stream 0) :=
  ⟨by norm_num, by norm_num, by norm_num, by norm_num,
   pump_stream_periodic 60 (1/2) 2 1 2 (by norm_num) (by norm_num) (by norm_num)
     (by norm_num) 0⟩

/-- C8 counterexample: the phase accumulator is NOT always in `[0, 2π)`
for all parameter values.  With `rpm = 240` and `sample_rate = 1` the
per-sample increment is `8π`; after one generated sample the single
conditional subtraction leaves the phase at `6π ≥ 2π`. -/
theorem pump_phase_can_escape :
    ¬ (((PumpSource.new 240 1 (1/2) 1).generate 1).2.phase < 2 * Real.pi) := by
  have hd : (PumpSource.new 240 1 (1/2) 1).d_phase = 8 * Real.pi := by
    show 2 * Real.pi * ((240 : ℝ) / 60) / 1 = 8 * Real.pi
    norm_num
    ring
  have hstate : ((PumpSource.new 240 1 (1/2) 1).generate 1).2
      = (PumpSource.new 240 1 (1/2) 1).advance := rfl
  rw [hstate]
  have hadv : (PumpSource.new 240 1 (1/2) 1).advance.phase
      = if 2 * Real.pi ≤ (PumpSource.new 240 1 (1/2) 1).phase
            + (PumpSource.new 240 1 (1/2) 1).d_phase
        then (PumpSource.new 240 1 (1/2) 1).phase
            + (PumpSource.new 240 1 (1/2) 1).d_phase - 2 * Real.pi
        else (PumpSource.new 240 1 (1/2) 1).phase
            + (PumpSource.new 240 1 (1/2) 1).d_phase := rfl
  have hzero : (PumpSource.new 240 1 (1/2) 1).phase = 0 := rfl
  rw [hadv, hzero, hd, zero_add, if_pos (by nlinarith [Real.pi_pos])]
  push_neg
  nlinarith [Real.pi_pos]

/-- C8 (amended): the phase starts at 0, `set_params` never resets it,
and it remains in `[0, 2π)` across every `generate` call provided the
per-sample increment does not exceed `2π`, i.e. `0 ≤ rpm ≤ 60·sample_rate`
with `sample_rate > 0` (the unconditionally quantified version is refuted
by `pump_phase_can_escape`). -/
theorem pump_phase_invariant :
    (∀ (rpm : ℝ) (nv : ℕ) (dc sr : ℝ), (PumpSource.new rpm nv dc sr).phase = 0) ∧
    (∀ (p : PumpSource) (rpm : ℝ) (nv : ℕ) (dc : ℝ),
      (p.set_params rpm nv dc).phase = p.phase) ∧
    (∀ (p : PumpSource) (n : ℕ), 0 ≤ p.phase → p.phase < 2 * Real.pi →
      0 ≤ p.rpm → 0 < p.sample_rate → p.rpm ≤ 60 * p.sample_rate →
      0 ≤ ((p.generate n).2).phase ∧ ((p.generate n).2).phase < 2 * Real.pi) := by
  refine ⟨fun _ _ _ _ => rfl, fun _ _ _ _ => rfl, ?_⟩
  intro p n
  induction n generalizing p with
  | zero =>
    intro h0 h2 _ _ _
    rw [generate_zero]
    exact ⟨h0, h2⟩
  | succ n ih =>
    intro h0 h2 hr hs hb
    rw [generate_succ]
    have hd0 : 0 ≤ p.d_phase := by
      rw [PumpSource.d_phase]
      positivity
    have hd2 : p.d_phase ≤ 2 * Real.pi := by
      rw [PumpSource.d_phase, div_le_iff₀ hs]
      nlinarith [Real.pi_pos]
    have hadv : p.advance.phase
        = if 2 * Real.pi ≤ p.phase + p.d_phase
          then p.phase + p.d_phase - 2 * Real.pi
          else p.phase + p.d_phase := rfl
    have hfields : p.advance.rpm = p.rpm ∧ p.advance.sample_rate = p.sample_rate :=
      ⟨rfl, rfl⟩
    apply ih p.advance
    · rw [hadv]
      by_cases hc : 2 * Real.pi ≤ p.phase + p.d_phase
      · rw [if_pos hc]
        linarith
      · rw [if_neg hc]
        linarith
    · rw [hadv]
      by_cases hc : 2 * Real.pi ≤ p.phase + p.d_phase
      · rw [if_pos hc]
        linarith
      · rw [if_neg hc]
        push_neg at hc
        exact hc
    · rw [hfields.1]
      exact hr
    · rw [hfields.2]
      exact hs
    · rw [hfields.1, hfields.2]
      exact hb

/-- Witness for the amended C8 at rpm 60, sample rate 1. -/
theorem pump_phase_invariant_witness :
    ((PumpSource.new 60 1 (1/2) 1).phase = 0) ∧
    ((PumpSource.set_params (PumpSource.new 60 1 (1/2) 1) 90 2 (1/4)).phase
      = (PumpSource.new 60 1 (1/2) 1).phase) ∧
    (0 ≤ (PumpSource.new 60 1 (1/2) 1).phase) ∧
    ((PumpSource.new 60 1 (1/2) 1).phase < 2 * Real.pi) ∧
    (0 ≤ (PumpSource.new 60 1 (1/2) 1).rpm) ∧
    (0 < (PumpSource.new 60 1 (1/2) 1).sample_rate) ∧
    ((PumpSource.new 60 1 (1/2) 1).rpm ≤ 60 * (PumpSource.new 60 1 (1/2) 1).sample_rate) ∧
    (0 ≤ (((PumpSource.new 60 1 (1/2) 1).generate 3).2).phase ∧
      (((PumpSource.new 60 1 (1/2) 1).generate 3).2).phase < 2 * Real.pi) :=
  ⟨pump_phase_invariant.1 60 1 (1/2) 1,
   pump_phase_invariant.2.1 (PumpSource.new 60 1 (1/2) 1) 90 2 (1/4),
   le_refl 0, Real.two_pi_pos,
   by show (0:ℝ) ≤ 60; norm_num,
   by show (0:ℝ) < 1; norm_num,
   by show (60:ℝ) ≤ 60 * 1; norm_num,
   pump_phase_invariant.2.2 (PumpSource.new 60 1 (1/2) 1) 3
     (le_refl 0) Real.two_pi_pos (by show (0:ℝ) ≤ 60; norm_num)
     (by show (0:ℝ) < 1; norm_num) (by show (60:ℝ) ≤ 60 * 1; norm_num)⟩

/-! ## Transfer-matrix acoustics
(src/crates/sim-core/src/{constants,transfer_matrix,elements,muffler}.rs) -/

/-- `area_from_diameter`: cross-sectional area `π(d/2)²`. -/
noncomputable def area_from_diameter (d : ℝ) : ℝ := Real.pi * (d / 2) ^ 2

/-- A 2×2 complex transfer matrix. -/
structure TransferMatrix where
  a : ℂ
  b : ℂ
  c : ℂ
  d : ℂ

/-- Identity matrix (no-op element). -/
def TransferMatrix.identity : TransferMatrix := ⟨1, 0, 0, 1⟩

/-- Chain (multiply) two transfer matrices. -/
def TransferMatrix.chain (m other : TransferMatrix) : TransferMatrix :=
  ⟨m.a * other.a + m.b * other.c, m.a * other.b + m.b * other.d,
   m.c * other.a + m.d * other.c, m.c * other.b + m.d * other.d⟩

/-- Transmission loss in dB:
`20·log10(|a + b/zl + zs·c + zs·d/zl| / 2)`. -/
noncomputable def TransferMatrix.transmission_loss (t : TransferMatrix)
    (z_source z_load : ℝ) : ℝ :=
  20 * Real.logb 10 (Complex.abs
    (t.a + t.b / (z_load : ℂ) + (z_source : ℂ) * t.c
      + (z_source : ℂ) * t.d / (z_load : ℂ)) / 2)

/-- Complex pressure transfer function `2 / (a + b/zl + zs·c + zs·d/zl)`. -/
noncomputable def TransferMatrix.pressure_transfer (t : TransferMatrix)
    (z_source z_load : ℝ) : ℂ :=
  2 / (t.a + t.b / (z_load : ℂ) + (z_source : ℂ) * t.c
      + (z_source : ℂ) * t.d / (z_load : ℂ))

/-- A straight cylindrical duct (length and inner diameter, metres). -/
structure StraightDuct where
  length : ℝ
  diameter : ℝ

noncomputable def StraightDuct.area (s : StraightDuct) : ℝ :=
  area_from_diameter s.diameter

/-- Characteristic impedance `Z = ρc/S`. -/
noncomputable def StraightDuct.impedance (s : StraightDuct) (c rho : ℝ) : ℝ :=
  rho * c / s.area

/-- Transfer matrix of a straight duct at angular frequency `omega`. -/
noncomputable def StraightDuct.transfer_matrix (s : StraightDuct)
    (omega c rho : ℝ) : TransferMatrix :=
  let k := omega / c
  let z := s.impedance c rho
  let kl := k * s.length
  ⟨((Real.cos kl : ℝ) : ℂ),
   Complex.I * ((z : ℝ) : ℂ) * ((Real.sin kl : ℝ) : ℂ),
   Complex.I * ((1 / z : ℝ) : ℂ) * ((Real.sin kl : ℝ) : ℂ),
   ((Real.cos kl : ℝ) : ℂ)⟩

/-- An ordered chain of acoustic elements with terminal impedances. -/
structure Muffler where
  elements : List StraightDuct
  z_source : ℝ
  z_load : ℝ

/-- Fold `chain` over the elements starting from the identity. -/
noncomputable def Muffler.total_transfer_matrix (m : Muffler)
    (omega c rho : ℝ) : TransferMatrix :=
  m.elements.foldl (fun total e => total.chain (e.transfer_matrix omega c rho))
    TransferMatrix.identity

noncomputable def Muffler.transmission_loss (m : Muffler) (omega c rho : ℝ) : ℝ :=
  (m.total_transfer_matrix omega c rho).transmission_loss m.z_source m.z_load

noncomputable def Muffler.pressure_transfer (m : Muffler) (omega c rho : ℝ) : ℂ :=
  (m.total_transfer_matrix omega c rho).pressure_transfer m.z_source m.z_load

/-! ### Helper lemmas for the acoustics -/

theorem identity_chain (t : TransferMatrix) :
    TransferMatrix.identity.chain t = t := by
  cases t
  simp [TransferMatrix.chain, TransferMatrix.identity]

theorem total_tm_single (dct : StraightDuct) (zs zl omega c rho : ℝ) :
    (Muffler.mk [dct] zs zl).total_transfer_matrix omega c rho
      = dct.transfer_matrix omega c rho := by
  rw [Muffler.total_transfer_matrix]
  simp [identity_chain]

theorem duct_tm_a (s : StraightDuct) (omega c rho : ℝ) :
    (s.transfer_matrix omega c rho).a
      = ((Real.cos (omega / c * s.length) : ℝ) : ℂ) := rfl

theorem duct_tm_b (s : StraightDuct) (omega c rho : ℝ) :
    (s.transfer_matrix omega c rho).b
      = Complex.I * ((s.impedance c rho : ℝ) : ℂ)
          * ((Real.sin (omega / c * s.length) : ℝ) : ℂ) := rfl

theorem duct_tm_c (s : StraightDuct) (omega c rho : ℝ) :
    (s.transfer_matrix omega c rho).c
      = Complex.I * ((1 / s.impedance c rho : ℝ) : ℂ)
          * ((Real.sin (omega / c * s.length) : ℝ) : ℂ) := rfl

theorem duct_tm_d (s : StraightDuct) (omega c rho : ℝ) :
    (s.transfer_matrix omega c rho).d
      = ((Real.cos (omega / c * s.length) : ℝ) : ℂ) := rfl

theorem logb_sqrt (w : ℝ) (hw : 0 ≤ w) :
    Real.logb 10 (Real.sqrt w) = Real.logb 10 w / 2 := by
  rw [Real.logb, Real.logb, Real.log_sqrt hw]
  ring

theorem sqrt_four : Real.sqrt 4 = 2 := by
  rw [show (4 : ℝ) = 2 ^ 2 by norm_num, Real.sqrt_sq (by norm_num : (0:ℝ) ≤ 2)]

/-- Closed form of the single-expansion-chamber transmission loss. -/
theorem single_duct_tl (dct : StraightDuct) (S_pipe c rho : ℝ)
    (hc : 0 < c) (hrho : 0 < rho) (hA : 0 < dct.area) (hS : 0 < S_pipe)
    (omega : ℝ) :
    (Muffler.mk [dct] (rho * c / S_pipe) (rho * c / S_pipe)).transmission_loss omega c rho
      = 10 * Real.logb 10 (1 + 0.25 * (dct.area / S_pipe - S_pipe / dct.area) ^ 2
          * Real.sin (omega / c * dct.length) ^ 2) := by
  have hAne : dct.area ≠ 0 := ne_of_gt hA
  have hSne : S_pipe ≠ 0 := ne_of_gt hS
  have hcne : c ≠ 0 := ne_of_gt hc
  have hrne : rho ≠ 0 := ne_of_gt hrho
  set kl := omega / c * dct.length with hkl
  set zc := dct.impedance c rho with hzc
  set zp := rho * c / S_pipe with hzp
  have hzcval : zc = rho * c / dct.area := rfl
  have hzcpos : 0 < zc := by
    rw [hzcval]
    positivity
  have hzppos : 0 < zp := by
    rw [hzp]
    positivity
  have hzcC : ((zc : ℝ) : ℂ) ≠ 0 := Complex.ofReal_ne_zero.mpr (ne_of_gt hzcpos)
  have hzpC : ((zp : ℝ) : ℂ) ≠ 0 := Complex.ofReal_ne_zero.mpr (ne_of_gt hzppos)
  rw [Muffler.transmission_loss, total_tm_single, TransferMatrix.transmission_loss]
  rw [duct_tm_a, duct_tm_b, duct_tm_c, duct_tm_d]
  have hnum : ((Real.cos kl : ℝ) : ℂ)
        + Complex.I * ((zc : ℝ) : ℂ) * ((Real.sin kl : ℝ) : ℂ) / ((zp : ℝ) : ℂ)
        + ((zp : ℝ) : ℂ) * (Complex.I * ((1 / zc : ℝ) : ℂ) * ((Real.sin kl : ℝ) : ℂ))
        + ((zp : ℝ) : ℂ) * ((Real.cos kl : ℝ) : ℂ) / ((zp : ℝ) : ℂ)
      = ((2 * Real.cos kl : ℝ) : ℂ)
        + ((Real.sin kl * (zc / zp + zp / zc) : ℝ) : ℂ) * Complex.I := by
    push_cast
    field_simp
    ring
  rw [hnum, Complex.abs_add_mul_I]
  have hco : Real.cos kl ^ 2 = 1 - Real.sin kl ^ 2 := by
    have := Real.sin_sq_add_cos_sq kl
    linarith
  have hxy : (2 * Real.cos kl) ^ 2 + (Real.sin kl * (zc / zp + zp / zc)) ^ 2
      = 4 * (1 + 0.25 * (dct.area / S_pipe - S_pipe / dct.area) ^ 2
          * Real.sin kl ^ 2) := by
    have hzr : zc / zp + zp / zc = S_pipe / dct.area + dct.area / S_pipe := by
      rw [hzcval, hzp]
      field_simp
      ring
    rw [hzr, show (2 * Real.cos kl) ^ 2 = 4 * Real.cos kl ^ 2 by ring, hco]
    field_simp
    ring
  have hR : (0:ℝ) ≤ 1 + 0.25 * (dct.area / S_pipe - S_pipe / dct.area) ^ 2
      * Real.sin kl ^ 2 := by positivity
  rw [hxy, Real.sqrt_mul (by norm_num : (0:ℝ) ≤ 4), sqrt_four,
    mul_div_cancel_left₀ _ (two_ne_zero), logb_sqrt _ hR]
  ring

/-- C4: for a single-chamber muffler with matched pipe impedances, the
transmission loss equals `10·log10(1 + 0.25·(m − 1/m)²·sin²(kL))` with
`m` the area ratio and `k = ω/c`; in particular it is exactly 0 at
`kL = nπ` and equals the peak value at `kL = (2n−1)π/2`. -/
theorem expansion_chamber_tl (dct : StraightDuct) (S_pipe c rho : ℝ)
    (hc : 0 < c) (hrho : 0 < rho) (hA : 0 < dct.area) (hS : 0 < S_pipe) :
    (∀ omega,
      (Muffler.mk [dct] (rho * c / S_pipe) (rho * c / S_pipe)).transmission_loss omega c rho
        = 10 * Real.logb 10 (1 + 0.25 * (dct.area / S_pipe - S_pipe / dct.area) ^ 2
            * Real.sin (omega / c * dct.length) ^ 2)) ∧
    (∀ (omega : ℝ) (n : ℤ), omega / c * dct.length = (n : ℝ) * Real.pi →
      (Muffler.mk [dct] (rho * c / S_pipe) (rho * c / S_pipe)).transmission_loss omega c rho
        = 0) ∧
    (∀ (omega : ℝ) (n : ℤ),
      omega / c * dct.length = (2 * (n : ℝ) - 1) * Real.pi / 2 →
      (Muffler.mk [dct] (rho * c / S_pipe) (rho * c / S_pipe)).transmission_loss omega c rho
        = 10 * Real.logb 10 (1 + 0.25 * (dct.area / S_pipe - S_pipe / dct.area) ^ 2)) := by
  refine ⟨single_duct_tl dct S_pipe c rho hc hrho hA hS, ?_, ?_⟩
  · intro omega n hres
    rw [single_duct_tl dct S_pipe c rho hc hrho hA hS omega, hres,
      Real.sin_int_mul_pi]
    norm_num
  · intro omega n hpeak
    have hcos : Real.cos (omega / c * dct.length) = 0 := by
      apply Real.cos_eq_zero_iff.mpr
      exact ⟨n - 1, by rw [hpeak]; push_cast; ring⟩
    have hs2 : Real.sin (omega / c * dct.length) ^ 2 = 1 := by
      have := Real.sin_sq_add_cos_sq (omega / c * dct.length)
      rw [hcos] at this
      nlinarith
    rw [single_duct_tl dct S_pipe c rho hc hrho hA hS omega, hs2, mul_one]

/-- Witness for C4: unit geometry (duct of length 1, diameter 2,
`S_pipe = c = ρ = 1`), evaluated at `ω = 0`. -/
theorem expansion_chamber_tl_witness :
    ((0:ℝ) < 1) ∧ ((0:ℝ) < (StraightDuct.mk 1 2).area) ∧
    ((Muffler.mk [StraightDuct.mk 1 2] (1 * 1 / 1) (1 * 1 / 1)).transmission_loss 0 1 1
      = 10 * Real.logb 10 (1 + 0.25
          * ((StraightDuct.mk 1 2).area / 1 - 1 / (StraightDuct.mk 1 2).area) ^ 2
          * Real.sin (0 / 1 * (StraightDuct.mk 1 2).length) ^ 2)) :=
  ⟨one_pos,
   by show (0:ℝ) < Real.pi * ((2:ℝ) / 2) ^ 2; positivity,
   (expansion_chamber_tl (StraightDuct.mk 1 2) 1 1 1 one_pos one_pos
     (by show (0:ℝ) < Real.pi * ((2:ℝ) / 2) ^ 2; positivity) one_pos).1 0⟩

/-! ## Frequency-response sweep (src/crates/sim-core/src/frequency_response.rs) -/

/-- `sweep`: evaluate TL and pressure transfer on the uniform FFT bin
grid, forcing the DC region (`freq < 1 Hz`) to `TL = 0`, `H = 1`. -/
noncomputable def sweep (m : Muffler) (fft_size : ℕ) (sample_rate c rho : ℝ) :
    List ℝ × List ℝ × List ℂ :=
  let num_bins := fft_size / 2 + 1
  let bin_width := sample_rate / (fft_size : ℝ)
  ((List.range num_bins).map fun i : ℕ => (i : ℝ) * bin_width,
   (List.range num_bins).map fun i : ℕ =>
     if (i : ℝ) * bin_width < 1 then 0
     else m.transmission_loss (2 * Real.pi * ((i : ℝ) * bin_width)) c rho,
   (List.range num_bins).map fun i : ℕ =>
     if (i : ℝ) * bin_width < 1 then 1
     else m.pressure_transfer (2 * Real.pi * ((i : ℝ) * bin_width)) c rho)

/-- C6: `sweep` returns three vectors of length `fft_size/2+1` on the
uniform grid `frequencies[i] = i·(sample_rate/fft_size)`; bins below 1 Hz
are forced to `TL = 0`, `H = 1`, every other bin carries the muffler's
transmission loss and pressure transfer at `ω = 2π·frequencies[i]`. -/
theorem sweep_grid_and_dc (m : Muffler) (fft_size : ℕ) (sample_rate c rho : ℝ) :
    ((sweep m fft_size sample_rate c rho).1.length = fft_size / 2 + 1) ∧
    ((sweep m fft_size sample_rate c rho).2.1.length = fft_size / 2 + 1) ∧
    ((sweep m fft_size sample_rate c rho).2.2.length = fft_size / 2 + 1) ∧
    (∀ i, i < fft_size / 2 + 1 →
      ((sweep m fft_size sample_rate c rho).1.getD i 0
          = (i : ℝ) * (sample_rate / (fft_size : ℝ))) ∧
      ((i : ℝ) * (sample_rate / (fft_size : ℝ)) < 1 →
        (sweep m fft_size sample_rate c rho).2.1.getD i 0 = 0 ∧
        (sweep m fft_size sample_rate c rho).2.2.getD i 0 = 1) ∧
      (¬ (i : ℝ) * (sample_rate / (fft_size : ℝ)) < 1 →
        (sweep m fft_size sample_rate c rho).2.1.getD i 0
            = m.transmission_loss
                (2 * Real.pi * ((i : ℝ) * (sample_rate / (fft_size : ℝ)))) c rho ∧
        (sweep m fft_size sample_rate c rho).2.2.getD i 0
            = m.pressure_transfer
                (2 * Real.pi * ((i : ℝ) * (sample_rate / (fft_size : ℝ)))) c rho)) := by
  rw [sweep]
  dsimp only
  refine ⟨by simp, by simp, by simp, ?_⟩
  intro i hi
  refine ⟨?_, ?_, ?_⟩
  · rw [getD_map_range, if_pos hi]
  · intro hdc
    rw [getD_map_range, getD_map_range, if_pos hi, if_pos hi, if_pos hdc, if_pos hdc]
    exact ⟨rfl, rfl⟩
  · intro hdc
    rw [getD_map_range, getD_map_range, if_pos hi, if_pos hi, if_neg hdc, if_neg hdc]
    exact ⟨rfl, rfl⟩

/-- Witness for C6: empty muffler, `fft_size = 2`, `sample_rate = 2`,
DC bin `i = 0`. -/
theorem sweep_grid_and_dc_witness :
    (0 < 2 / 2 + 1) ∧ (((0:ℕ) : ℝ) * ((2:ℝ) / ((2:ℕ) : ℝ)) < 1) ∧
    ((sweep (Muffler.mk [] 1 1) 2 2 1 1).1.getD 0 0
        = ((0:ℕ) : ℝ) * ((2:ℝ) / ((2:ℕ) : ℝ))) ∧
    ((sweep (Muffler.mk [] 1 1) 2 2 1 1).2.1.getD 0 0 = 0) ∧
    ((sweep (Muffler.mk [] 1 1) 2 2 1 1).2.2.getD 0 0 = 1) :=
  ⟨by norm_num, by norm_num,
   ((sweep_grid_and_dc (Muffler.mk [] 1 1) 2 2 1 1).2.2.2 0 (by norm_num)).1,
   (((sweep_grid_and_dc (Muffler.mk [] 1 1) 2 2 1 1).2.2.2 0 (by norm_num)).2.1
     (by norm_num)).1,
   (((sweep_grid_and_dc (Muffler.mk [] 1 1) 2 2 1 1).2.2.2 0 (by norm_num)).2.1
     (by norm_num)).2⟩

/-! ## Impulse-response synthesis (src/crates/sim-core/src/impulse_response.rs) -/

/-- Hermitian extension of an `n/2+1`-bin half spectrum to `n` bins:
bin `k > n/2` mirrors the conjugate of bin `n - k`. -/
noncomputable def hermitianBin (spectrum : List ℂ) (n k : ℕ) : ℂ :=
  if k ≤ n / 2 then spectrum.getD k 0 else (starRingEnd ℂ) (spectrum.getD (n - k) 0)

/-- Modelled from the spec: the inverse real FFT performed by the
third-party `realfft` crate (not part of this repository) is the
unnormalized length-`n` inverse discrete Fourier transform of the
Hermitian extension of the `n/2+1`-bin spectrum; its outputs are real
when the DC and Nyquist bins are real, modelled here as the real part of
the complex inverse DFT sum. -/
noncomputable def irfft (spectrum : List ℂ) (n : ℕ) : List ℝ :=
  (List.range n).map fun t : ℕ =>
    (∑ k ∈ Finset.range n, hermitianBin spectrum n k
        * Complex.exp (2 * Real.pi * Complex.I * (k : ℂ) * (t : ℂ) / (n : ℂ))).re

/-- `impulse_response::compute`: force the DC and Nyquist bins real,
inverse-transform, scale by `1/fft_size`, truncate to `fft_size/2`
samples and apply a Hann window. -/
noncomputable def compute (transfer_function : List ℂ) (fft_size : ℕ) : List ℝ :=
  let spectrum := (List.range transfer_function.length).map fun k : ℕ =>
    if k = 0 ∨ k = transfer_function.length - 1
    then (((transfer_function.getD k 0).re : ℝ) : ℂ)
    else transfer_function.getD k 0
  let output := (irfft spectrum fft_size).map fun s => s * (1 / (fft_size : ℝ))
  let ir_len := fft_size / 2
  (List.range ir_len).map fun i : ℕ =>
    output.getD i 0 * (0.5 * (1 - Real.cos (2 * Real.pi * (i : ℝ) / (ir_len : ℝ))))

/-! ### The inverse DFT of the all-ones spectrum vanishes off sample 0 -/

theorem exp_sum_zero (n t : ℕ) (h1 : 1 ≤ t) (h2 : t < n) :
    ∑ k ∈ Finset.range n, Complex.exp (2 * Real.pi * Complex.I * (k : ℂ) * (t : ℂ) / (n : ℂ))
      = 0 := by
  have hn0 : (n : ℂ) ≠ 0 := Nat.cast_ne_zero.mpr (by omega)
  set z := Complex.exp (2 * Real.pi * Complex.I * (t : ℂ) / (n : ℂ)) with hz
  have hterm : ∀ k : ℕ,
      Complex.exp (2 * Real.pi * Complex.I * (k : ℂ) * (t : ℂ) / (n : ℂ)) = z ^ k := by
    intro k
    rw [hz, ← Complex.exp_nat_mul]
    congr 1
    ring
  have hπI : (2 : ℂ) * Real.pi * Complex.I ≠ 0 := by
    simp [Complex.ofReal_ne_zero.mpr (ne_of_gt Real.pi_pos), Complex.I_ne_zero]
  have hz1 : z ≠ 1 := by
    intro hcon
    rw [hz, Complex.exp_eq_one_iff] at hcon
    obtain ⟨m, hm⟩ := hcon
    have hts : (t : ℂ) = (m : ℂ) * (n : ℂ) := by
      field_simp at hm
      have h2' : (2 : ℂ) * Real.pi * Complex.I * t = 2 * Real.pi * Complex.I * (m * n) := by
        rw [hm]
        ring
      exact mul_left_cancel₀ hπI h2'
    have htz : (t : ℤ) = m * (n : ℤ) := by exact_mod_cast hts
    rcases le_or_lt m 0 with hm0 | hm1
    · nlinarith [htz, (by exact_mod_cast h1 : (1:ℤ) ≤ (t:ℤ)),
        (by exact_mod_cast h2 : (t:ℤ) < (n:ℤ)), hm0]
    · have : (1:ℤ) ≤ m := hm1
      nlinarith [htz, (by exact_mod_cast h2 : (t:ℤ) < (n:ℤ)),
        (by exact_mod_cast Nat.zero_le n : (0:ℤ) ≤ (n:ℤ))]
  have hzn : z ^ n = 1 := by
    rw [hz, ← Complex.exp_nat_mul]
    have harg : (n : ℂ) * (2 * Real.pi * Complex.I * (t : ℂ) / (n : ℂ))
        = (t : ℂ) * (2 * Real.pi * Complex.I) := by
      field_simp
      ring
    rw [harg, Complex.exp_nat_mul, Complex.exp_two_pi_mul_I, one_pow]
  rw [Finset.sum_congr rfl fun k _ => hterm k, geom_sum_eq hz1, hzn, sub_self, zero_div]

/-- With the unity transfer function, every bin of the (end-forced)
spectrum used by `compute`, extended Hermitian-wise, is 1. -/
theorem unity_hermitian_bin (n k : ℕ) (hk : k < n) :
    hermitianBin ((List.range (List.replicate (n / 2 + 1) (1:ℂ)).length).map fun j : ℕ =>
      if j = 0 ∨ j = (List.replicate (n / 2 + 1) (1:ℂ)).length - 1
      then ((((List.replicate (n / 2 + 1) (1:ℂ)).getD j 0).re : ℝ) : ℂ)
      else (List.replicate (n / 2 + 1) (1:ℂ)).getD j 0) n k = 1 := by
  have hlen : (List.replicate (n / 2 + 1) (1:ℂ)).length = n / 2 + 1 :=
    List.length_replicate _ _
  have hget : ∀ j, j < n / 2 + 1 → (List.replicate (n / 2 + 1) (1:ℂ)).getD j 0 = 1 := by
    intro j hj
    rw [List.getD_eq_getElem _ _ (by simpa [hlen] using hj)]
    simp
  have hspec : ∀ j, j < n / 2 + 1 →
      (((List.range (List.replicate (n / 2 + 1) (1:ℂ)).length).map fun j : ℕ =>
        if j = 0 ∨ j = (List.replicate (n / 2 + 1) (1:ℂ)).length - 1
        then ((((List.replicate (n / 2 + 1) (1:ℂ)).getD j 0).re : ℝ) : ℂ)
        else (List.replicate (n / 2 + 1) (1:ℂ)).getD j 0).getD j 0) = 1 := by
    intro j hj
    rw [getD_map_range]
    rw [if_pos (by simpa [hlen] using hj)]
    rw [hget j hj]
    by_cases hj0 : j = 0 ∨ j = (List.replicate (n / 2 + 1) (1:ℂ)).length - 1
    · rw [if_pos hj0]
      simp
    · rw [if_neg hj0]
  rw [hermitianBin]
  by_cases hk2 : k ≤ n / 2
  · rw [if_pos hk2, hspec k (by omega)]
  · rw [if_neg hk2, hspec (n - k) (by omega)]
    exact map_one _

/-- Scaling a list elementwise commutes with out-of-range reads. -/
theorem getD_map_mul (l : List ℝ) (c : ℝ) (i : ℕ) :
    ((l.map fun s => s * c).getD i 0) = l.getD i 0 * c := by
  have h := List.getD_map l (0:ℝ) (f := fun s => s * c) (n := i)
  rw [zero_mul] at h
  exact h

/-- The unity transfer function produces the all-zero windowed impulse
response: the inverse DFT is a delta at sample 0, and the Hann window
vanishes there. -/
theorem compute_unity_zero (n : ℕ) (i : ℕ) :
    (compute (List.replicate (n / 2 + 1) 1) n).getD i 0 = 0 := by
  rw [compute]
  rw [getD_map_range]
  by_cases hi : i < n / 2
  · rw [if_pos hi]
    by_cases hi0 : i = 0
    · subst hi0
      norm_num
    · have h1i : 1 ≤ i := by omega
      have hin : i < n := by omega
      rw [getD_map_mul, irfft, getD_map_range, if_pos hin]
      have hsum : (∑ k ∈ Finset.range n,
          hermitianBin ((List.range (List.replicate (n / 2 + 1) (1:ℂ)).length).map fun j : ℕ =>
            if j = 0 ∨ j = (List.replicate (n / 2 + 1) (1:ℂ)).length - 1
            then ((((List.replicate (n / 2 + 1) (1:ℂ)).getD j 0).re : ℝ) : ℂ)
            else (List.replicate (n / 2 + 1) (1:ℂ)).getD j 0) n k
            * Complex.exp (2 * Real.pi * Complex.I * (k : ℂ) * (i : ℂ) / (n : ℂ)))
          = 0 := by
        rw [Finset.sum_congr rfl fun k hk => by
          rw [unity_hermitian_bin n k (Finset.mem_range.mp hk), one_mul]]
        exact exp_sum_zero n i h1i hin
      rw [hsum]
      simp
  · rw [if_neg hi]

/-- C5: given `H` of length `fft_size/2+1`, `compute` returns exactly
`fft_size/2` samples; for the unity transfer function, sample 0 is a
maximum-magnitude sample of the returned impulse response. -/
theorem compute_length_and_unity_peak (H : List ℂ) (n : ℕ)
    (hH : H.length = n / 2 + 1) :
    ((compute H n).length = n / 2) ∧
    (∀ i, |(compute (List.replicate (n / 2 + 1) 1) n).getD i 0|
        ≤ |(compute (List.replicate (n / 2 + 1) 1) n).getD 0 0|) := by
  constructor
  · rw [compute]
    simp
  · intro i
    rw [compute_unity_zero n i, compute_unity_zero n 0]

/-- Witness for C5 at `fft_size = 2`, `H = [1, 1]`. -/
theorem compute_length_and_unity_peak_witness :
    ((List.replicate 2 (1:ℂ)).length = 2 / 2 + 1) ∧
    ((compute (List.replicate 2 (1:ℂ)) 2).length = 2 / 2) ∧
    (|(compute (List.replicate (2 / 2 + 1) (1:ℂ)) 2).getD 1 0|
        ≤ |(compute (List.replicate (2 / 2 + 1) (1:ℂ)) 2).getD 0 0|) :=
  ⟨by simp,
   (compute_length_and_unity_peak (List.replicate 2 1) 2 (by simp)).1,
   (compute_length_and_unity_peak (List.replicate 2 1) 2 (by simp)).2 1⟩

end MufflerSim
